import Mathlib

/-!
Verification of flask-unchained behaviour claims.

Shallow embedding of the relevant parts of the repository:
  * `src/flask_unchained/bundles/sqlalchemy/commands.py` (CLI commands) as
    effect-trace producing functions;
  * `src/flask_unchained/bundles/sqlalchemy/services/model_manager.py`
    (`ModelManager`) over an abstract ORM query object;
  * `src/flask_unchained/utils.py` (`ConfigPropertyMeta`, `OptionalMetaclass`,
    `deep_getattr`, `format_docstring`);
  * `src/flask_unchained/hooks/__init__.py` (the bootstrap hook pipeline,
    modelled from the spec since the runner itself is not among the sources).
-/

namespace FlaskUnchained

/-! ## CLI commands (`commands.py`)

A command invocation is modelled by the list of observable effects it
performs, in order.  `exit(msg)` raises `SystemExit` in Python, so nothing
after it is emitted. -/

/-- One observable effect of a CLI command. -/
inductive Eff where
  | echo (msg : String)
  | exitMsg (msg : String)
  | dropAllTables
  | executeSql (sql : String)
  | alembicUpgrade (revision : String)
deriving DecidableEq, Repr

/-- An effect that touches the database (as opposed to terminal output). -/
def Eff.destructive : Eff → Bool
  | .echo _ => false
  | .exitMsg _ => false
  | .dropAllTables => true
  | .executeSql _ => true
  | .alembicUpgrade _ => true

/-- `drop_all` from `commands.py`: `db_ext.drop_all()` followed by
`db_ext.engine.execute('DROP TABLE IF EXISTS alembic_version;')`. -/
def drop_all : List Eff :=
  [Eff.dropAllTables, Eff.executeSql "DROP TABLE IF EXISTS alembic_version;"]

/-- `drop_command(drop)` from `commands.py`: when the flag is unset it calls
`exit('Cancelled.')`; otherwise it echoes, runs `drop_all()` and echoes. -/
def drop_command (drop : Bool) : List Eff :=
  if !drop then [Eff.exitMsg "Cancelled."]
  else [Eff.echo "Dropping DB tables."] ++ drop_all ++ [Eff.echo "Done."]

/-- `reset_command(reset)` from `commands.py`: when the flag is unset it calls
`exit('Cancelled.')`; otherwise it echoes, runs `drop_all()`, echoes, runs
`alembic.upgrade(migrate.get_config(None), 'head')` and echoes. -/
def reset_command (reset : Bool) : List Eff :=
  if !reset then [Eff.exitMsg "Cancelled."]
  else [Eff.echo "Dropping DB tables."] ++ drop_all
        ++ [Eff.echo "Running DB migrations."]
        ++ [Eff.alembicUpgrade "head"]
        ++ [Eff.echo "Done."]

/-! ## `OptionalMetaclass` (`utils.py`)

The metaclass keeps one class-level slot `__optional_class` (`none` before the
stand-in object has been created).  All operations of the metaclass are pure
functions on that slot. -/

/-- The mutable class-level state of `OptionalMetaclass`: the cached
`__optional_class` stand-in object, if it has been created yet. -/
structure OptionalMetaState (Obj : Type) where
  optionalClass : Option Obj
deriving DecidableEq, Repr

/-- `OptionalMetaclass.__new__`: create and cache the stand-in only when the
slot is still `None`; always return the cached object. `fresh` stands for the
object `super().__new__(mcs, name, bases, clsdict)` would have produced. -/
def omNew (st : OptionalMetaState Obj) (fresh : Obj) :
    OptionalMetaState Obj × Obj :=
  match st.optionalClass with
  | none => (⟨some fresh⟩, fresh)
  | some o => (st, o)

/-- `OptionalMetaclass.__getattr__`: returns `self.__optional_class`. -/
def omGetattr (st : OptionalMetaState Obj) (_item : String) : Option Obj :=
  st.optionalClass

/-- `OptionalMetaclass.__getitem__`: returns `self.__optional_class`. -/
def omGetitem (st : OptionalMetaState Obj) (_item : String) : Option Obj :=
  st.optionalClass

/-- `OptionalMetaclass.__call__`: returns `self.__optional_class`. -/
def omCall (st : OptionalMetaState Obj) (_args : List String) : Option Obj :=
  st.optionalClass

/-- `OptionalMetaclass.__setattr__`: `pass` — the state is left untouched. -/
def omSetattr (st : OptionalMetaState Obj) (_key : String) (_value : Obj) :
    OptionalMetaState Obj :=
  st

/-- `OptionalMetaclass.__setitem__`: `pass` — the state is left untouched. -/
def omSetitem (st : OptionalMetaState Obj) (_key : String) (_value : Obj) :
    OptionalMetaState Obj :=
  st

/-! ## Bootstrap hook pipeline (`hooks/__init__.py`)

Modelled from the spec: the hook classes are declared under
`src/flask_unchained/hooks/__init__.py`, but the code that runs them during
application bootstrap is not among the repository's source files.  The spec
describes it as "an ordered list of lifecycle callbacks invoked during
application bootstrap ... a fixed-order callback pipeline, not a scheduler —
no backpressure, no failure-recovery semantics beyond linear sequencing." -/

/-- The lifecycle hooks named by the spec and declared in
`hooks/__init__.py`. -/
inductive LifecycleHook where
  | configureApp
  | initExtensions
  | registerExtensions
  | injectServicesIntoExtensions
  | registerCommands
  | registerServices
  | runHooks
deriving DecidableEq, Repr

/-- Modelled from the spec: the fixed order in which the bootstrap pipeline
invokes the lifecycle hooks. -/
def bootstrapHookOrder : List LifecycleHook :=
  [LifecycleHook.configureApp,
   LifecycleHook.initExtensions,
   LifecycleHook.registerExtensions,
   LifecycleHook.injectServicesIntoExtensions,
   LifecycleHook.registerCommands,
   LifecycleHook.registerServices,
   LifecycleHook.runHooks]

/-- Modelled from the spec: bootstrap runs the hooks one after the other on
the application state, recording the invocation trace; there is no branching,
reordering or failure recovery. -/
def runBootstrap (apply : LifecycleHook → α → α) (st : α) :
    α × List LifecycleHook :=
  bootstrapHookOrder.foldl (fun acc h => (apply h acc.1, acc.2 ++ [h])) (st, [])

/-! ## `ModelManager` (`services/model_manager.py`)

The manager delegates to the ORM's `BaseQuery` object (`self.model.query`).
The query object is modelled by its result rows together with the ORM's
primary-key, keyword-filter and `get_by` semantics; `PK` is the primary key
type, `Inst` the mapped instance type and `Kwargs` the type of a keyword
argument package. -/

/-- The ORM query object `self.model.query` (`BaseQuery`). -/
structure BaseQuery (PK Inst Kwargs : Type) where
  rows : List Inst
  pk : Inst → PK
  matchesKw : Kwargs → Inst → Bool
  getByFn : Kwargs → Option Inst

/-- ORM `Query.get(id)`: the mapped instance whose primary key is `i`, or
`none` when not found. -/
def BaseQuery.get [DecidableEq PK] (q : BaseQuery PK Inst Kwargs) (i : PK) :
    Option Inst :=
  q.rows.find? (fun r => decide (q.pk r = i))

/-- ORM `Query.filter_by(**kwargs)`: the query restricted to the rows that
satisfy the keyword criteria. -/
def BaseQuery.filter_by (q : BaseQuery PK Inst Kwargs) (kw : Kwargs) :
    BaseQuery PK Inst Kwargs :=
  { q with rows := q.rows.filter (q.matchesKw kw) }

/-- ORM `Query.all()`: the list of the query's result rows. -/
def BaseQuery.all (q : BaseQuery PK Inst Kwargs) : List Inst :=
  q.rows

/-- ORM `Query.get_by(**kwargs)` (from `flask_sqlalchemy_unchained`, outside
this repository): kept abstract as the query object's `getByFn` field. -/
def BaseQuery.get_by (q : BaseQuery PK Inst Kwargs) (kw : Kwargs) :
    Option Inst :=
  q.getByFn kw

/-- The manager's model class: its query object, its constructor
`self.model(**kwargs)` and Python truthiness of its instances. -/
structure ModelClass (PK Inst Kwargs : Type) where
  query : BaseQuery PK Inst Kwargs
  new : Kwargs → Inst
  truthy : Inst → Bool

/-- A `ModelManager`, holding its model class. -/
structure ModelManager (PK Inst Kwargs : Type) where
  model : ModelClass PK Inst Kwargs

/-- `ModelManager.q`: alias for `self.model.query`. -/
def ModelManager.q (m : ModelManager PK Inst Kwargs) :
    BaseQuery PK Inst Kwargs :=
  m.model.query

/-- `ModelManager.get(id)`: `return self.q.get(id)`. -/
def ModelManager.get [DecidableEq PK] (m : ModelManager PK Inst Kwargs)
    (i : PK) : Option Inst :=
  m.q.get i

/-- `ModelManager.find_by(**kwargs)`: `return self.q.filter_by(**kwargs).all()`. -/
def ModelManager.find_by (m : ModelManager PK Inst Kwargs) (kw : Kwargs) :
    List Inst :=
  (m.q.filter_by kw).all

/-- `ModelManager.get_by(**kwargs)`: `return self.q.get_by(**kwargs)`. -/
def ModelManager.get_by (m : ModelManager PK Inst Kwargs) (kw : Kwargs) :
    Option Inst :=
  m.q.get_by kw

/-- The session of saved instances.  `SessionManager.save` itself is not
among the repository's source files. -/
structure SessionState (Inst : Type) where
  saved : List (Inst × Bool)
deriving DecidableEq, Repr

/-- Modelled from the spec: `SessionManager.save(instance, commit)` (the
`SessionManager` base class is not under the repository's source files) —
"adding it to the database session, and optionally commits the session";
recorded as appending the instance with its commit flag. -/
def sessionSave (s : SessionState Inst) (instance_ : Inst) (commit : Bool) :
    SessionState Inst :=
  ⟨s.saved ++ [(instance_, commit)]⟩

/-- `ModelManager.create(commit, **kwargs)`: `instance = self.model(**kwargs);
self.save(instance, commit=commit); return instance`. -/
def ModelManager.create (m : ModelManager PK Inst Kwargs)
    (s : SessionState Inst) (commit : Bool) (kw : Kwargs) :
    SessionState Inst × Inst :=
  let instance_ := m.model.new kw
  (sessionSave s instance_ commit, instance_)

/-- `ModelManager.get_or_create(commit, **kwargs)`:
`instance = self.get_by(**kwargs); if not instance: return
self.create(commit=commit, **kwargs), True; return instance, False`.
Python's `not instance` is true when `get_by` returned `None` and also when
it returned a falsy instance. -/
def ModelManager.get_or_create (m : ModelManager PK Inst Kwargs)
    (s : SessionState Inst) (commit : Bool) (kw : Kwargs) :
    SessionState Inst × Inst × Bool :=
  match m.get_by kw with
  | none =>
      let r := m.create s commit kw
      (r.1, r.2, true)
  | some instance_ =>
      if m.model.truthy instance_ then (s, instance_, false)
      else
        let r := m.create s commit kw
        (r.1, r.2, true)

/-- Python's `not x` on the result of `get_by`: true for `None` and for a
falsy instance. -/
def pyFalsyInstance (truthy : Inst → Bool) : Option Inst → Bool
  | none => true
  | some i => !truthy i

/-- Python `setattr(instance, attr, value)` on an attribute map. -/
def pySetattr [DecidableEq Attr] (attrs : Attr → Value) (a : Attr)
    (v : Value) : Attr → Value :=
  fun x => if x = a then v else attrs x

/-- A model instance as a mutable object: its identity (`ref`) and its
attribute map. -/
structure PyInstance (Attr Value : Type) where
  ref : Nat
  attrs : Attr → Value

/-- `ModelManager.update(instance, commit, **kwargs)`:
`for attr, value in kwargs.items(): setattr(instance, attr, value);
self.save(instance, commit=commit); return instance`.  The session records
the instance's identity. -/
def ModelManager.update [DecidableEq Attr]
    (instance_ : PyInstance Attr Value) (s : SessionState Nat)
    (commit : Bool) (kwargs : List (Attr × Value)) :
    PyInstance Attr Value × SessionState Nat :=
  let instance' :=
    kwargs.foldl
      (fun i av => { i with attrs := pySetattr i.attrs av.1 av.2 }) instance_
  (instance', sessionSave s instance'.ref commit)

/-! Definitions following the words of the spec, for the refinement claim
about `ModelManager` delegation ("the mapped instance with that primary key,
or None when not found" and "exactly query.filter_by(**kwargs).all()"). -/

/-- The spec's description of `get`: the mapped instance with the given
primary key, or `None` when not found. -/
def specMappedInstanceWithPk [DecidableEq PK]
    (q : BaseQuery PK Inst Kwargs) (i : PK) : Option Inst :=
  q.rows.find? (fun r => decide (q.pk r = i))

/-- The spec's description of `find_by`: exactly
`query.filter_by(**kwargs).all()`. -/
def specFilterByAll (q : BaseQuery PK Inst Kwargs) (kw : Kwargs) :
    List Inst :=
  (q.filter_by kw).all

/-! ## `deep_getattr` (`utils.py`)

A pre-class-construction class dictionary and each base class's attribute
view are modelled as association lists in insertion order; `_missing` is the
absence of an entry.  `AttributeError(name)` is `Except.error name`. -/

/-- Python `dict.get(name)` / `getattr(base, name, _missing)` on an attribute
dictionary modelled as an association list. -/
def dictGet (d : List (String × Value)) (name : String) : Option Value :=
  (d.find? (fun kv => kv.1 == name)).map (fun kv => kv.2)

/-- The base-class loop of `deep_getattr`: `getattr(base, name, _missing)`
for each base in the order given, keeping the first hit. -/
def firstBaseAttr (bases : List (List (String × Value))) (name : String) :
    Option Value :=
  match bases with
  | [] => none
  | b :: bs =>
      match dictGet b name with
      | some v => some v
      | none => firstBaseAttr bs name

/-- `deep_getattr(clsdict, bases, name, default=_missing)` from `utils.py`:
first the class dictionary, then the bases in the order given, then the
default when one was supplied; otherwise `raise AttributeError(name)`. -/
def deep_getattr (clsdict : List (String × Value))
    (bases : List (List (String × Value))) (name : String)
    (default : Option Value) : Except String Value :=
  match dictGet clsdict name with
  | some v => Except.ok v
  | none =>
      match firstBaseAttr bases name with
      | some v => Except.ok v
      | none =>
          match default with
          | some d => Except.ok d
          | none => Except.error name

/-! ## `ConfigPropertyMeta` (`utils.py`)

`ConfigPropertyMeta.__init__` iterates the class dictionary and mutates, in
place, every `ConfigProperty` descriptor whose `key` is falsy.  A descriptor
is identified by a reference into a heap `Nat → Option String` mapping each
descriptor object to its `key` (`none` for the constructor default
`key=None`).  Class-dictionary values are a descriptor reference, a string
(as `__config_prefix__` is), or anything else. -/

/-- A value of the class dictionary as seen by `ConfigPropertyMeta.__init__`. -/
inductive ClsDictVal where
  | prop (ref : Nat)
  | str (s : String)
  | other
deriving DecidableEq, Repr

/-- Python `str.upper()` (over the ASCII letters the repository uses). -/
def pyUpper (s : String) : String :=
  ⟨s.data.map Char.toUpper⟩

/-- Python `str.rstrip('_')`: the string with all trailing underscores
removed. -/
def pyRstripUnderscore (s : String) : String :=
  ⟨(s.data.reverse.dropWhile (fun c => c == '_')).reverse⟩

/-- Python falsiness of a `ConfigProperty.key` value: `None` and the empty
string are falsy. -/
def pyFalsyOptStr : Option String → Bool
  | none => true
  | some s => s == ""

/-- `clsdict.get('__config_prefix__', class_name).rstrip('_')`: the prefix
used for key injection; `none` when the entry exists but is not a string
(Python would raise a `TypeError` from `rstrip`). -/
def configPrefixValue (class_name : String)
    (clsdict : List (String × ClsDictVal)) : Option String :=
  match dictGet clsdict "__config_prefix__" with
  | some (ClsDictVal.str s) => some (pyRstripUnderscore s)
  | some _ => none
  | none => some (pyRstripUnderscore class_name)

/-- The loop of `ConfigPropertyMeta.__init__`: for every
`(property_name, descriptor)` item with `descriptor` a `ConfigProperty`
whose key is falsy, set `descriptor.key = f'(prefix)_(property_name)'.upper()`
on the descriptor heap. -/
def cpmLoop (cpfx : String) (pheap : Nat → Option String) :
    List (String × ClsDictVal) → (Nat → Option String)
  | [] => pheap
  | (n, ClsDictVal.prop ref) :: rest =>
      if pyFalsyOptStr (pheap ref) then
        cpmLoop cpfx
          (fun r => if r = ref then some (pyUpper (cpfx ++ "_" ++ n))
                    else pheap r) rest
      else cpmLoop cpfx pheap rest
  | (_, ClsDictVal.str _) :: rest => cpmLoop cpfx pheap rest
  | (_, ClsDictVal.other) :: rest => cpmLoop cpfx pheap rest

/-- `ConfigPropertyMeta.__init__(cls, class_name, bases, clsdict)`: computes
the config prefix and runs the key-injection loop, returning the final
descriptor heap (`none` when the prefix is not a string). -/
def configPropertyMetaInit (class_name : String)
    (clsdict : List (String × ClsDictVal)) (pheap : Nat → Option String) :
    Option (Nat → Option String) :=
  match configPrefixValue class_name clsdict with
  | none => none
  | some cpfx => some (cpmLoop cpfx pheap clsdict)

/-- The descriptor references held by a class dictionary, in order. -/
def propRefs (clsdict : List (String × ClsDictVal)) : List Nat :=
  clsdict.filterMap (fun nv =>
    match nv.2 with
    | ClsDictVal.prop r => some r
    | _ => none)

/-! ## `format_docstring` (`utils.py`)

`format_docstring(docstring)` returns `''` for a falsy docstring and
otherwise `re.sub(r'\s+', ' ', docstring).strip()`.  The regular expression
substitution replaces every maximal run of whitespace with a single space;
`strip()` removes leading and trailing whitespace.  Whitespace is modelled
over the ASCII whitespace characters Python's `\s` and `str.strip` agree
on. -/

/-- Python's whitespace class (`\s` / `str.strip()`), over ASCII: space,
tab, newline, carriage return, vertical tab, form feed. -/
def isPySpace (c : Char) : Bool :=
  c == ' ' || c == '\t' || c == '\n' || c == '\r'
    || c == Char.ofNat 11 || c == Char.ofNat 12

/-- `re.sub(r'\s+', ' ', _)` over a character list: each maximal whitespace
run becomes one space.  The flag records whether the previous character was
part of a whitespace run already replaced. -/
def subWsAux : Bool → List Char → List Char
  | _, [] => []
  | inWs, c :: cs =>
      if isPySpace c then
        if inWs then subWsAux true cs
        else ' ' :: subWsAux true cs
      else c :: subWsAux false cs

/-- `re.sub(r'\s+', ' ', s)`. -/
def pySubWs (s : List Char) : List Char :=
  subWsAux false s

/-- Python `str.strip()`: drop leading and trailing whitespace. -/
def pyStrip (s : List Char) : List Char :=
  ((s.dropWhile isPySpace).reverse.dropWhile isPySpace).reverse

/-- `format_docstring(docstring)` from `utils.py`; `none` is Python's
`None`, and `if not docstring` is true of `None` and of the empty string. -/
def format_docstring : Option String → String
  | none => ""
  | some s => if s = "" then "" else ⟨pyStrip (pySubWs s.data)⟩

/-- No two consecutive characters of the list are both whitespace. -/
def NoTwoWs (l : List Char) : Prop :=
  List.Chain' (fun a b => isPySpace a = false ∨ isPySpace b = false) l

end FlaskUnchained

namespace FlaskUnchained

/-! # Theorems -/

/-- Claim C2: for every invocation of the `drop` or `reset` CLI command in
which the confirmation flag is false, the command exits with the message
`Cancelled.` before performing any destructive step: its whole effect trace
is the single `exit('Cancelled.')`, so neither `drop_all` nor any migration
runs and the database state is unchanged. -/
theorem drop_reset_cancelled_without_confirmation :
    drop_command false = [Eff.exitMsg "Cancelled."]
      ∧ reset_command false = [Eff.exitMsg "Cancelled."]
      ∧ (drop_command false).filter Eff.destructive = []
      ∧ (reset_command false).filter Eff.destructive = [] := by
  refine ⟨rfl, rfl, rfl, rfl⟩

/-- Claim C3: a confirmed `reset` invocation performs exactly these
database-affecting steps in this order: drop all database tables, execute
`DROP TABLE IF EXISTS alembic_version;`, then run migrations upgrading to
revision `head`; the full trace additionally interleaves only terminal
echoes. -/
theorem reset_confirmed_step_order :
    (reset_command true).filter Eff.destructive
        = [Eff.dropAllTables,
           Eff.executeSql "DROP TABLE IF EXISTS alembic_version;",
           Eff.alembicUpgrade "head"]
      ∧ reset_command true
        = [Eff.echo "Dropping DB tables.",
           Eff.dropAllTables,
           Eff.executeSql "DROP TABLE IF EXISTS alembic_version;",
           Eff.echo "Running DB migrations.",
           Eff.alembicUpgrade "head",
           Eff.echo "Done."] := by
  refine ⟨rfl, rfl⟩

/-- Claim C6: once the stand-in class object of `OptionalMetaclass` has been
created, attribute access, subscripting and calling the class each return
that same single object; attribute assignment and item assignment have no
effect on the state; and a further class creation returns the cached object
and leaves the state unchanged. -/
theorem optionalMetaclass_single_object_invariant (Obj : Type)
    (st : OptionalMetaState Obj) (o : Obj) (h : st.optionalClass = some o) :
    (∀ item, omGetattr st item = some o)
      ∧ (∀ item, omGetitem st item = some o)
      ∧ (∀ args, omCall st args = some o)
      ∧ (∀ k v, omSetattr st k v = st)
      ∧ (∀ k v, omSetitem st k v = st)
      ∧ (∀ fresh, omNew st fresh = (st, o)) := by
  refine ⟨fun _ => h, fun _ => h, fun _ => h, fun _ _ => rfl, fun _ _ => rfl,
    fun fresh => ?_⟩
  unfold omNew
  rw [h]

/-- Witness for the `OptionalMetaclass` invariant at a concrete state. -/
theorem optionalMetaclass_single_object_invariant_witness :
    (OptionalMetaState.mk (some 7) : OptionalMetaState Nat).optionalClass
        = some 7
      ∧ omGetattr (OptionalMetaState.mk (some 7) : OptionalMetaState Nat) "x"
        = some 7 :=
  ⟨rfl,
    (optionalMetaclass_single_object_invariant Nat ⟨some 7⟩ 7 rfl).1 "x"⟩

/-- Claim C1: `ModelManager` is a pure delegation wrapper over the ORM query
object: `ModelManager.get(id)` returns exactly `query.get(id)` — the mapped
instance with that primary key, or `None` when not found — and
`ModelManager.find_by(**kwargs)` returns exactly
`query.filter_by(**kwargs).all()`, the rows matching the keyword criteria. -/
theorem modelManager_pure_delegation (PK Inst Kwargs : Type)
    [DecidableEq PK] (m : ModelManager PK Inst Kwargs) (i : PK)
    (kw : Kwargs) :
    m.get i = m.model.query.get i
      ∧ m.get i = specMappedInstanceWithPk m.model.query i
      ∧ m.find_by kw = (m.model.query.filter_by kw).all
      ∧ m.find_by kw = specFilterByAll m.model.query kw
      ∧ m.find_by kw
        = m.model.query.rows.filter (m.model.query.matchesKw kw) := by
  refine ⟨rfl, rfl, rfl, rfl, rfl⟩

/-- The `setattr` loop of `ModelManager.update` never changes the object's
identity. -/
theorem update_loop_ref [DecidableEq Attr] (kwargs : List (Attr × Value))
    (inst : PyInstance Attr Value) :
    (kwargs.foldl
        (fun i av => { i with attrs := pySetattr i.attrs av.1 av.2 })
        inst).ref = inst.ref := by
  induction kwargs generalizing inst with
  | nil => rfl
  | cons hd tl ih => exact ih _

/-- The `setattr` loop of `ModelManager.update` leaves every attribute not
named in `kwargs` unchanged. -/
theorem update_loop_not_mem [DecidableEq Attr] (kwargs : List (Attr × Value))
    (inst : PyInstance Attr Value) (a : Attr)
    (ha : a ∉ kwargs.map Prod.fst) :
    (kwargs.foldl
        (fun i av => { i with attrs := pySetattr i.attrs av.1 av.2 })
        inst).attrs a = inst.attrs a := by
  induction kwargs generalizing inst with
  | nil => rfl
  | cons hd tl ih =>
      simp only [List.map_cons, List.mem_cons, not_or] at ha
      rw [List.foldl_cons, ih _ ha.2]
      simp [pySetattr, ha.1]

/-- The `setattr` loop of `ModelManager.update` sets every attribute named in
`kwargs` (whose keys are distinct, as Python keyword arguments are) to its
given value. -/
theorem update_loop_mem [DecidableEq Attr] (kwargs : List (Attr × Value))
    (inst : PyInstance Attr Value) (a : Attr) (v : Value)
    (hnd : (kwargs.map Prod.fst).Nodup) (hmem : (a, v) ∈ kwargs) :
    (kwargs.foldl
        (fun i av => { i with attrs := pySetattr i.attrs av.1 av.2 })
        inst).attrs a = v := by
  induction kwargs generalizing inst with
  | nil => cases hmem
  | cons hd tl ih =>
      simp only [List.map_cons, List.nodup_cons] at hnd
      rcases List.mem_cons.mp hmem with heq | htl
      · subst heq
        rw [List.foldl_cons,
          update_loop_not_mem tl _ a hnd.1]
        simp [pySetattr]
      · exact ih _ hnd.2 htl

/-- Claim C4: `ModelManager.update(instance, commit, **kwargs)` sets exactly
the attributes named in `kwargs` to the given values, leaves every other
attribute of the instance unchanged, saves the instance to the session, and
returns the same instance object (same identity) it was given. -/
theorem modelManager_update_frame (Attr Value : Type) [DecidableEq Attr]
    (instance_ : PyInstance Attr Value) (s : SessionState Nat)
    (commit : Bool) (kwargs : List (Attr × Value))
    (hnd : (kwargs.map Prod.fst).Nodup) :
    (∀ a v, (a, v) ∈ kwargs →
        (ModelManager.update instance_ s commit kwargs).1.attrs a = v)
      ∧ (∀ a, a ∉ kwargs.map Prod.fst →
        (ModelManager.update instance_ s commit kwargs).1.attrs a
          = instance_.attrs a)
      ∧ (ModelManager.update instance_ s commit kwargs).1.ref
          = instance_.ref
      ∧ (ModelManager.update instance_ s commit kwargs).2
          = sessionSave s instance_.ref commit := by
  refine ⟨fun a v hmem => update_loop_mem kwargs instance_ a v hnd hmem,
    fun a ha => update_loop_not_mem kwargs instance_ a ha,
    update_loop_ref kwargs instance_, ?_⟩
  show sessionSave s
      (kwargs.foldl
        (fun i av => { i with attrs := pySetattr i.attrs av.1 av.2 })
        instance_).ref commit = sessionSave s instance_.ref commit
  rw [update_loop_ref kwargs instance_]

/-- Witness for the `ModelManager.update` frame property at a concrete
instance and keyword arguments. -/
theorem modelManager_update_frame_witness :
    (([(1, 5), (2, 7)] : List (Nat × Nat)).map Prod.fst).Nodup
      ∧ (ModelManager.update (⟨3, fun _ => 0⟩ : PyInstance Nat Nat) ⟨[]⟩
          false [(1, 5), (2, 7)]).1.attrs 1 = 5 :=
  ⟨by decide,
    (modelManager_update_frame Nat Nat ⟨3, fun _ => 0⟩ ⟨[]⟩ false
        [(1, 5), (2, 7)] (by decide)).1 1 5 (by decide)⟩

/-- Claim C8: `ModelManager.get_or_create(commit, **kwargs)` returns
`(instance, created)` where `created` is true exactly when `get_by(**kwargs)`
returned a falsy value (`None` or a falsy instance); when `created` is true
the instance is newly constructed from `kwargs` (and saved), and when
`created` is false the instance is the truthy one `get_by` found and the
session is untouched; in particular an existing falsy instance is treated as
absent and a new instance is created. -/
theorem get_or_create_created_iff_falsy (PK Inst Kwargs : Type)
    (m : ModelManager PK Inst Kwargs) (s : SessionState Inst)
    (commit : Bool) (kw : Kwargs) :
    ((m.get_or_create s commit kw).2.2
        = pyFalsyInstance m.model.truthy (m.get_by kw))
      ∧ ((m.get_or_create s commit kw).2.2 = true →
          (m.get_or_create s commit kw).2.1 = m.model.new kw
            ∧ (m.get_or_create s commit kw).1
              = sessionSave s (m.model.new kw) commit)
      ∧ ((m.get_or_create s commit kw).2.2 = false →
          m.get_by kw = some (m.get_or_create s commit kw).2.1
            ∧ m.model.truthy (m.get_or_create s commit kw).2.1 = true
            ∧ (m.get_or_create s commit kw).1 = s)
      ∧ (∀ i, m.get_by kw = some i → m.model.truthy i = false →
          (m.get_or_create s commit kw).2.2 = true
            ∧ (m.get_or_create s commit kw).2.1 = m.model.new kw) := by
  cases hq : m.get_by kw with
  | none =>
      simp [ModelManager.get_or_create, ModelManager.get_by] at hq ⊢
      simp [hq, pyFalsyInstance, ModelManager.create]
  | some i =>
      simp only [ModelManager.get_or_create, ModelManager.get_by] at hq ⊢
      rw [hq]
      cases ht : m.model.truthy i with
      | false => simp [ht, pyFalsyInstance, ModelManager.create, hq]
      | true => simp [ht, pyFalsyInstance, hq]

/-- The base-class loop finds nothing exactly when no base has the
attribute. -/
theorem firstBaseAttr_none_iff (Value : Type)
    (bases : List (List (String × Value))) (name : String) :
    firstBaseAttr bases name = none
      ↔ ∀ b ∈ bases, dictGet b name = none := by
  induction bases with
  | nil => simp [firstBaseAttr]
  | cons b bs ih =>
      cases hb : dictGet b name with
      | none => simp [firstBaseAttr, hb, ih]
      | some v => simp [firstBaseAttr, hb]

/-- The base-class loop returns the attribute of the first base, in the
order given, that has it. -/
theorem firstBaseAttr_first_hit (Value : Type)
    (pre post : List (List (String × Value)))
    (b : List (String × Value)) (name : String) (v : Value)
    (hpre : ∀ b' ∈ pre, dictGet b' name = none)
    (hb : dictGet b name = some v) :
    firstBaseAttr (pre ++ b :: post) name = some v := by
  induction pre with
  | nil => simp [firstBaseAttr, hb]
  | cons p ps ih =>
      have hp : dictGet p name = none := hpre p (by simp)
      rw [List.cons_append]
      unfold firstBaseAttr
      rw [hp]
      exact ih (fun b' hb' => hpre b' (List.mem_cons_of_mem p hb'))

/-- Claim C9: `deep_getattr(clsdict, bases, name, default)` returns
`clsdict[name]` when present; otherwise the attribute of the first base, in
the order given, that has it; otherwise the supplied default; and it raises
`AttributeError(name)` exactly when the name is absent from the class
dictionary and from every base and no default was given. -/
theorem deep_getattr_resolution_order (Value : Type)
    (clsdict : List (String × Value))
    (bases : List (List (String × Value))) (name : String)
    (default : Option Value) :
    (∀ v, dictGet clsdict name = some v →
        deep_getattr clsdict bases name default = Except.ok v)
      ∧ (∀ v, dictGet clsdict name = none →
          firstBaseAttr bases name = some v →
          deep_getattr clsdict bases name default = Except.ok v)
      ∧ (∀ pre b post v, bases = pre ++ b :: post →
          (∀ b' ∈ pre, dictGet b' name = none) →
          dictGet b name = some v →
          firstBaseAttr bases name = some v)
      ∧ (∀ d, dictGet clsdict name = none →
          firstBaseAttr bases name = none → default = some d →
          deep_getattr clsdict bases name default = Except.ok d)
      ∧ (deep_getattr clsdict bases name default = Except.error name
          ↔ dictGet clsdict name = none
            ∧ (∀ b ∈ bases, dictGet b name = none)
            ∧ default = none) := by
  refine ⟨fun v hv => ?_, fun v hc hv => ?_,
    fun pre b post v hsplit hpre hb => ?_, fun d hc hf hd => ?_, ?_⟩
  · simp [deep_getattr, hv]
  · simp [deep_getattr, hc, hv]
  · rw [hsplit]
    exact firstBaseAttr_first_hit Value pre post b name v hpre hb
  · simp [deep_getattr, hc, hf, hd]
  · rw [← firstBaseAttr_none_iff Value bases name]
    cases hc : dictGet clsdict name with
    | some v => simp [deep_getattr, hc]
    | none =>
        cases hf : firstBaseAttr bases name with
        | some v => simp [deep_getattr, hc, hf]
        | none =>
            cases hd : default with
            | some d => simp [deep_getattr, hc, hf, hd]
            | none => simp [deep_getattr, hc, hf, hd]

/-- The key-injection loop never touches a descriptor that no item of the
class dictionary references. -/
theorem cpmLoop_not_mem (cpfx : String) (pheap : Nat → Option String)
    (l : List (String × ClsDictVal)) (r : Nat) (hr : r ∉ propRefs l) :
    cpmLoop cpfx pheap l r = pheap r := by
  induction l generalizing pheap with
  | nil => rfl
  | cons e rest ih =>
      rcases e with ⟨n, v⟩
      cases v with
      | prop p =>
          have hr' : r ≠ p ∧ r ∉ propRefs rest := by
            simpa [propRefs, List.filterMap_cons] using hr
          cases hf : pyFalsyOptStr (pheap p) with
          | true =>
              simp only [cpmLoop, hf, if_true]
              rw [ih _ hr'.2]
              simp [hr'.1]
          | false =>
              simp only [cpmLoop, hf, Bool.false_eq_true, if_false]
              exact ih _ hr'.2
      | str s =>
          simp only [cpmLoop]
          exact ih _ (by simpa [propRefs, List.filterMap_cons] using hr)
      | other =>
          simp only [cpmLoop]
          exact ih _ (by simpa [propRefs, List.filterMap_cons] using hr)

/-- An item of the class dictionary contributes its descriptor reference to
`propRefs`. -/
theorem mem_propRefs_of_getElem (l : List (String × ClsDictVal)) (i : Nat)
    (n : String) (ref : Nat)
    (hi : l[i]? = some (n, ClsDictVal.prop ref)) : ref ∈ propRefs l := by
  have hm : (n, ClsDictVal.prop ref) ∈ l := by
    have := List.getElem?_eq_some.mp hi
    obtain ⟨hlt, hget⟩ := this
    exact hget ▸ List.getElem_mem hlt
  exact List.mem_filterMap.mpr ⟨(n, ClsDictVal.prop ref), hm, rfl⟩

/-- The per-item effect of the key-injection loop, when the class
dictionary's items reference pairwise-distinct descriptor objects: a falsy
key becomes `(prefix)_(property_name)` upper-cased, a truthy key is kept. -/
theorem cpmLoop_entry (cpfx : String) (pheap : Nat → Option String)
    (l : List (String × ClsDictVal)) (hnd : (propRefs l).Nodup) (i : Nat)
    (n : String) (ref : Nat)
    (hi : l[i]? = some (n, ClsDictVal.prop ref)) :
    (pyFalsyOptStr (pheap ref) = true →
        cpmLoop cpfx pheap l ref = some (pyUpper (cpfx ++ "_" ++ n)))
      ∧ (pyFalsyOptStr (pheap ref) = false →
        cpmLoop cpfx pheap l ref = pheap ref) := by
  induction l generalizing pheap i with
  | nil => simp at hi
  | cons e rest ih =>
      rcases e with ⟨m, v⟩
      cases i with
      | zero =>
          simp only [List.getElem?_cons_zero, Option.some_inj, Prod.mk.injEq]
            at hi
          obtain ⟨rfl, rfl⟩ := hi
          have href : ref ∉ propRefs rest := by
            simp only [propRefs, List.filterMap_cons] at hnd
            exact (List.nodup_cons.mp hnd).1
          constructor
          · intro hf
            simp only [cpmLoop, hf, if_true]
            rw [cpmLoop_not_mem _ _ _ _ href]
            simp
          · intro hf
            simp only [cpmLoop, hf, if_false]
            exact cpmLoop_not_mem _ _ _ _ href
      | succ j =>
          simp only [List.getElem?_cons_succ] at hi
          have hmem : ref ∈ propRefs rest := mem_propRefs_of_getElem _ _ _ _ hi
          cases v with
          | prop p =>
              have hptail : (propRefs rest).Nodup ∧ p ∉ propRefs rest := by
                simp only [propRefs, List.filterMap_cons] at hnd
                exact ⟨(List.nodup_cons.mp hnd).2, (List.nodup_cons.mp hnd).1⟩
              have hne : ref ≠ p := fun h => hptail.2 (h ▸ hmem)
              cases hf : pyFalsyOptStr (pheap p) with
              | true =>
                  simp only [cpmLoop, hf, if_true]
                  have hupd :
                      (fun r => if r = p then
                          some (pyUpper (cpfx ++ "_" ++ m))
                        else pheap r) ref = pheap ref := by
                    simp [hne]
                  have := ih
                    (fun r => if r = p then
                        some (pyUpper (cpfx ++ "_" ++ m))
                      else pheap r) hptail.1 j hi
                  rw [hupd] at this
                  exact this
              | false =>
                  simp only [cpmLoop, hf, Bool.false_eq_true, if_false]
                  exact ih pheap hptail.1 j hi
          | str s =>
              simp only [cpmLoop]
              refine ih pheap ?_ j hi
              simpa [propRefs, List.filterMap_cons] using hnd
          | other =>
              simp only [cpmLoop]
              refine ih pheap ?_ j hi
              simpa [propRefs, List.filterMap_cons] using hnd

/-- Counterexample to claim C5 as stated: a `ConfigProperty` constructed
with the explicit key `''` does not keep that key — `ConfigPropertyMeta`
tests `not descriptor.key`, which is also true of the empty string, so the
descriptor's key is overwritten with the injected one. -/
theorem configProperty_explicit_empty_key_overwritten :
    (configPropertyMetaInit "Ext" [("foo", ClsDictVal.prop 0)]
          (fun _ => some "")).map (fun h => h 0)
        = some (some "EXT_FOO")
      ∧ ¬ ((configPropertyMetaInit "Ext" [("foo", ClsDictVal.prop 0)]
          (fun _ => some "")).map (fun h => h 0)
        = some (some "")) := by
  refine ⟨by decide, by decide⟩

/-- Claim C5 (amended): for every class constructed with
`ConfigPropertyMeta` whose items reference pairwise-distinct descriptor
objects, every `ConfigProperty` in the class dictionary whose key is falsy
(unset, or the explicit empty string) is assigned the key
`f'(prefix)_(property_name)'.upper()`, where the prefix is the class's
`__config_prefix__` (or the class name when unspecified) with all trailing
underscores stripped; a `ConfigProperty` whose key is truthy (a non-empty
explicit key) keeps that key unchanged, and descriptors not referenced by
the class dictionary are untouched. -/
theorem configPropertyMeta_key_injection (class_name : String)
    (clsdict : List (String × ClsDictVal)) (pheap : Nat → Option String)
    (cpfx : String)
    (hpfx : configPrefixValue class_name clsdict = some cpfx)
    (hnd : (propRefs clsdict).Nodup) :
    configPropertyMetaInit class_name clsdict pheap
        = some (cpmLoop cpfx pheap clsdict)
      ∧ (dictGet clsdict "__config_prefix__" = none →
          cpfx = pyRstripUnderscore class_name)
      ∧ (∀ s, dictGet clsdict "__config_prefix__" = some (ClsDictVal.str s) →
          cpfx = pyRstripUnderscore s)
      ∧ (∀ (i : Nat) (n : String) (ref : Nat),
          clsdict[i]? = some (n, ClsDictVal.prop ref) →
          (pyFalsyOptStr (pheap ref) = true →
              cpmLoop cpfx pheap clsdict ref
                = some (pyUpper (cpfx ++ "_" ++ n)))
            ∧ (pyFalsyOptStr (pheap ref) = false →
              cpmLoop cpfx pheap clsdict ref = pheap ref))
      ∧ (∀ r, r ∉ propRefs clsdict →
          cpmLoop cpfx pheap clsdict r = pheap r) := by
  refine ⟨?_, ?_, ?_, fun i n ref hi => cpmLoop_entry cpfx pheap clsdict hnd
    i n ref hi, fun r hr => cpmLoop_not_mem cpfx pheap clsdict r hr⟩
  · simp only [configPropertyMetaInit, hpfx]
  · intro hnone
    simp only [configPrefixValue, hnone, Option.some_inj] at hpfx
    exact hpfx.symm
  · intro s hs
    simp only [configPrefixValue, hs, Option.some_inj] at hpfx
    exact hpfx.symm

/-- Witness for the amended `ConfigPropertyMeta` claim at a concrete class
dictionary: prefix from `__config_prefix__ = 'Pre__'`, one descriptor with
an unset key and one with a truthy key. -/
theorem configPropertyMeta_key_injection_witness :
    configPrefixValue "My_Ext_"
        [("foo", ClsDictVal.prop 0),
         ("__config_prefix__", ClsDictVal.str "Pre__"),
         ("bar", ClsDictVal.prop 1)] = some "Pre"
      ∧ cpmLoop "Pre" (fun r => if r = 0 then none else some "K")
          [("foo", ClsDictVal.prop 0),
           ("__config_prefix__", ClsDictVal.str "Pre__"),
           ("bar", ClsDictVal.prop 1)] 0 = some "PRE_FOO" :=
  ⟨by decide,
    ((configPropertyMeta_key_injection "My_Ext_"
        [("foo", ClsDictVal.prop 0),
         ("__config_prefix__", ClsDictVal.str "Pre__"),
         ("bar", ClsDictVal.prop 1)]
        (fun r => if r = 0 then none else some "K") "Pre" (by decide)
        (by decide)).2.2.2.1 0 "foo" 0 rfl).1 rfl⟩

/-- Claim C7: during application bootstrap the lifecycle hooks are invoked as
a fixed-order linear pipeline — the invocation trace is always exactly the
fixed hook order (configure app, init extensions, register extensions,
inject services into extensions, register commands, register services, run
hooks), and the resulting state is the plain sequential composition of the
hooks in that order, with no reordering and no failure-recovery behaviour. -/
theorem bootstrap_hooks_fixed_order (α : Type) (apply : LifecycleHook → α → α)
    (st : α) :
    (runBootstrap apply st).2 = bootstrapHookOrder
      ∧ bootstrapHookOrder
        = [LifecycleHook.configureApp,
           LifecycleHook.initExtensions,
           LifecycleHook.registerExtensions,
           LifecycleHook.injectServicesIntoExtensions,
           LifecycleHook.registerCommands,
           LifecycleHook.registerServices,
           LifecycleHook.runHooks]
      ∧ (runBootstrap apply st).1
        = apply LifecycleHook.runHooks
            (apply LifecycleHook.registerServices
              (apply LifecycleHook.registerCommands
                (apply LifecycleHook.injectServicesIntoExtensions
                  (apply LifecycleHook.registerExtensions
                    (apply LifecycleHook.initExtensions
                      (apply LifecycleHook.configureApp st)))))) := by
  refine ⟨rfl, rfl, rfl⟩

/-- In replacement mode (`inWs = true`), the substitution's output never
starts with whitespace. -/
theorem subWsAux_true_head (cs : List Char) (c : Char)
    (h : (subWsAux true cs).head? = some c) : isPySpace c = false := by
  induction cs with
  | nil => simp [subWsAux] at h
  | cons d ds ih =>
      cases hd : isPySpace d with
      | true =>
          rw [show subWsAux true (d :: ds) = subWsAux true ds from by
            simp [subWsAux, hd]] at h
          exact ih h
      | false =>
          rw [show subWsAux true (d :: ds) = d :: subWsAux false ds from by
            simp [subWsAux, hd]] at h
          simp only [List.head?_cons, Option.some_inj] at h
          exact h ▸ hd

/-- Every whitespace character of the substitution's output is a plain
space. -/
theorem subWsAux_all_space (b : Bool) (cs : List Char) (c : Char)
    (hc : c ∈ subWsAux b cs) (hws : isPySpace c = true) : c = ' ' := by
  induction cs generalizing b with
  | nil => simp [subWsAux] at hc
  | cons d ds ih =>
      cases hd : isPySpace d with
      | true =>
          cases b with
          | true =>
              rw [show subWsAux true (d :: ds) = subWsAux true ds from by
                simp [subWsAux, hd]] at hc
              exact ih true hc
          | false =>
              rw [show subWsAux false (d :: ds) = ' ' :: subWsAux true ds
                from by simp [subWsAux, hd]] at hc
              rcases List.mem_cons.mp hc with h | h
              · exact h
              · exact ih true h
      | false =>
          rw [show subWsAux b (d :: ds) = d :: subWsAux false ds from by
            cases b <;> simp [subWsAux, hd]] at hc
          rcases List.mem_cons.mp hc with h | h
          · rw [← h] at hd
            rw [hd] at hws
            cases hws
          · exact ih false h

/-- The substitution's output has no two consecutive whitespace
characters. -/
theorem subWsAux_chain (b : Bool) (cs : List Char) :
    NoTwoWs (subWsAux b cs) := by
  induction cs generalizing b with
  | nil => cases b <;> exact List.chain'_nil
  | cons d ds ih =>
      cases hd : isPySpace d with
      | true =>
          cases b with
          | true =>
              rw [show subWsAux true (d :: ds) = subWsAux true ds from by
                simp [subWsAux, hd]]
              exact ih true
          | false =>
              rw [show subWsAux false (d :: ds) = ' ' :: subWsAux true ds
                from by simp [subWsAux, hd]]
              refine List.chain'_cons'.mpr ⟨?_, ih true⟩
              intro y hy
              exact Or.inr (subWsAux_true_head ds y hy)
      | false =>
          rw [show subWsAux b (d :: ds) = d :: subWsAux false ds from by
            cases b <;> simp [subWsAux, hd]]
          refine List.chain'_cons'.mpr ⟨?_, ih false⟩
          intro y hy
          exact Or.inl hd

/-- When the input does not start with whitespace the substitution's two
modes agree. -/
theorem subWsAux_true_eq_false (cs : List Char)
    (h : ∀ c, cs.head? = some c → isPySpace c = false) :
    subWsAux true cs = subWsAux false cs := by
  cases cs with
  | nil => rfl
  | cons d ds => simp [subWsAux, h d rfl]

/-- A list with no two consecutive whitespace characters, all of whose
whitespace is plain spaces, is a fixed point of the substitution. -/
theorem subWs_fix (cs : List Char) (hch : NoTwoWs cs)
    (hall : ∀ c ∈ cs, isPySpace c = true → c = ' ') :
    subWsAux false cs = cs := by
  induction cs with
  | nil => rfl
  | cons d ds ih =>
      have hch' : NoTwoWs ds := (List.chain'_cons'.mp hch).2
      have hall' : ∀ c ∈ ds, isPySpace c = true → c = ' ' :=
        fun c hc => hall c (List.mem_cons_of_mem d hc)
      cases hd : isPySpace d with
      | true =>
          have hd' : d = ' ' := hall d (List.mem_cons_self d ds) hd
          have hhead : ∀ c, ds.head? = some c → isPySpace c = false := by
            intro c hc
            rcases (List.chain'_cons'.mp hch).1 c hc with h | h
            · rw [hd] at h
              cases h
            · exact h
          rw [show subWsAux false (d :: ds) = ' ' :: subWsAux true ds from by
            simp [subWsAux, hd]]
          rw [subWsAux_true_eq_false ds hhead, ih hch' hall', hd']
      | false =>
          rw [show subWsAux false (d :: ds) = d :: subWsAux false ds from by
            simp [subWsAux, hd]]
          rw [ih hch' hall']

/-- A list not starting with a `p`-character is a fixed point of
`dropWhile p`. -/
theorem dropWhile_eq_self_of_head (p : Char → Bool) (l : List Char)
    (h : ∀ c, l.head? = some c → p c = false) : l.dropWhile p = l := by
  cases l with
  | nil => rfl
  | cons d ds => simp [List.dropWhile_cons, h d rfl]

/-- The head of `dropWhile p` never satisfies `p`. -/
theorem head_dropWhile_false (p : Char → Bool) (l : List Char) (c : Char)
    (h : (l.dropWhile p).head? = some c) : p c = false := by
  induction l with
  | nil => simp [List.dropWhile] at h
  | cons d ds ih =>
      cases hd : p d with
      | true =>
          rw [List.dropWhile_cons] at h
          simp only [hd, if_true] at h
          exact ih h
      | false =>
          rw [List.dropWhile_cons] at h
          simp only [hd, Bool.false_eq_true, if_false, List.head?_cons,
            Option.some_inj] at h
          exact h ▸ hd

/-- `dropWhile` only removes from the front: when its result is nonempty it
keeps the last element. -/
theorem getLast_dropWhile (p : Char → Bool) (l : List Char)
    (hne : l.dropWhile p ≠ []) :
    (l.dropWhile p).getLast? = l.getLast? := by
  induction l with
  | nil => exact absurd rfl hne
  | cons d ds ih =>
      cases hd : p d with
      | true =>
          rw [List.dropWhile_cons] at hne ⊢
          simp only [hd, if_true] at hne ⊢
          have hds : ds ≠ [] := by
            intro h
            rw [h] at hne
            exact hne rfl
          rw [ih hne]
          cases ds with
          | nil => exact absurd rfl hds
          | cons e es => rw [List.getLast?_cons_cons]
      | false =>
          rw [List.dropWhile_cons]
          simp [hd]

/-- Reversal preserves the no-two-consecutive-whitespace property. -/
theorem noTwoWs_reverse (l : List Char) (h : NoTwoWs l) :
    NoTwoWs l.reverse := by
  refine List.chain'_reverse.mpr ?_
  exact List.Chain'.imp (fun a b hab => Or.symm hab) h

/-- `strip` preserves the no-two-consecutive-whitespace property. -/
theorem pyStrip_chain (l : List Char) (h : NoTwoWs l) :
    NoTwoWs (pyStrip l) := by
  unfold pyStrip
  refine noTwoWs_reverse _ ?_
  refine List.Chain'.suffix ?_ (List.dropWhile_suffix _)
  refine noTwoWs_reverse _ ?_
  exact List.Chain'.suffix h (List.dropWhile_suffix _)

/-- `strip` keeps only characters of its input. -/
theorem pyStrip_all_space (l : List Char)
    (hall : ∀ c ∈ l, isPySpace c = true → c = ' ') :
    ∀ c ∈ pyStrip l, isPySpace c = true → c = ' ' := by
  intro c hc hws
  refine hall c ?_ hws
  unfold pyStrip at hc
  have hc1 := List.mem_reverse.mp hc
  have hc2 := (List.dropWhile_suffix isPySpace).sublist.mem hc1
  have hc3 := List.mem_reverse.mp hc2
  exact (List.dropWhile_suffix isPySpace).sublist.mem hc3

/-- The result of `strip` has no leading whitespace. -/
theorem pyStrip_head (l : List Char) :
    ∀ c, (pyStrip l).head? = some c → isPySpace c = false := by
  intro c hc
  unfold pyStrip at hc
  rw [List.head?_reverse] at hc
  have hne : (l.dropWhile isPySpace).reverse.dropWhile isPySpace ≠ [] := by
    intro h
    rw [h] at hc
    cases hc
  rw [getLast_dropWhile isPySpace (l.dropWhile isPySpace).reverse hne,
    List.getLast?_reverse] at hc
  exact head_dropWhile_false isPySpace l c hc

/-- The result of `strip` has no trailing whitespace. -/
theorem pyStrip_last (l : List Char) :
    ∀ c, (pyStrip l).getLast? = some c → isPySpace c = false := by
  intro c hc
  unfold pyStrip at hc
  rw [List.getLast?_reverse] at hc
  exact head_dropWhile_false isPySpace (l.dropWhile isPySpace).reverse c hc

/-- A list with neither leading nor trailing whitespace is a fixed point of
`strip`. -/
theorem pyStrip_fix (l : List Char)
    (hh : ∀ c, l.head? = some c → isPySpace c = false)
    (hl : ∀ c, l.getLast? = some c → isPySpace c = false) :
    pyStrip l = l := by
  unfold pyStrip
  rw [dropWhile_eq_self_of_head isPySpace l hh]
  have hrev : ∀ c, l.reverse.head? = some c → isPySpace c = false := by
    intro c hc
    rw [List.head?_reverse] at hc
    exact hl c hc
  rw [dropWhile_eq_self_of_head isPySpace l.reverse hrev,
    List.reverse_reverse]

/-- Claim C10: `format_docstring` is idempotent; its result contains no two
consecutive whitespace characters and no leading or trailing whitespace; and
`format_docstring` of `None` or of the empty string is the empty string. -/
theorem format_docstring_idempotent_normalized :
    format_docstring none = ""
      ∧ format_docstring (some "") = ""
      ∧ ∀ s : String,
          format_docstring (some (format_docstring (some s)))
              = format_docstring (some s)
            ∧ NoTwoWs (format_docstring (some s)).data
            ∧ (format_docstring (some s)).data.head?.all
                (fun c => !isPySpace c) = true
            ∧ (format_docstring (some s)).data.getLast?.all
                (fun c => !isPySpace c) = true := by
  refine ⟨rfl, rfl, fun s => ?_⟩
  by_cases hs : s = ""
  · subst hs
    exact ⟨rfl, List.chain'_nil, rfl, rfl⟩
  · have hfs : format_docstring (some s) = ⟨pyStrip (pySubWs s.data)⟩ := by
      simp [format_docstring, hs]
    have hchain : NoTwoWs (pyStrip (pySubWs s.data)) :=
      pyStrip_chain _ (subWsAux_chain false s.data)
    have hall : ∀ c ∈ pyStrip (pySubWs s.data),
        isPySpace c = true → c = ' ' :=
      pyStrip_all_space _
        (fun c hc hws => subWsAux_all_space false s.data c hc hws)
    have hhead := pyStrip_head (pySubWs s.data)
    have hlast := pyStrip_last (pySubWs s.data)
    rw [hfs]
    refine ⟨?_, hchain, ?_, ?_⟩
    · by_cases hre : (⟨pyStrip (pySubWs s.data)⟩ : String) = ""
      · rw [hre]
        rfl
      · show format_docstring (some ⟨pyStrip (pySubWs s.data)⟩)
            = (⟨pyStrip (pySubWs s.data)⟩ : String)
        simp only [format_docstring, if_neg hre]
        show (⟨pyStrip (pySubWs (pyStrip (pySubWs s.data)))⟩ : String)
            = ⟨pyStrip (pySubWs s.data)⟩
        rw [show pySubWs (pyStrip (pySubWs s.data)) = pyStrip (pySubWs s.data)
          from subWs_fix _ hchain hall]
        rw [pyStrip_fix _ hhead hlast]
    · show (pyStrip (pySubWs s.data)).head?.all (fun c => !isPySpace c)
          = true
      cases hc : (pyStrip (pySubWs s.data)).head? with
      | none => rfl
      | some c => simp [Option.all, hhead c hc]
    · show (pyStrip (pySubWs s.data)).getLast?.all (fun c => !isPySpace c)
          = true
      cases hc : (pyStrip (pySubWs s.data)).getLast? with
      | none => rfl
      | some c => simp [Option.all, hlast c hc]

end FlaskUnchained
